import Mathlib

/-!
# DKTools: verification of the `DKTools.IO.Directory` traversal layer and the `DKTools.IO.WebStorage` wrapper

Shallow embedding of `src/DKTools/IO Directory.js` and `src/DKTools/IO WebStorage.js`.

The host filesystem is modelled as an immutable rose tree (`FS`); a
`DKTools.IO.File` / `DKTools.IO.Directory` entity produced by enumeration is
identified with the subtree it denotes.  JavaScript truthiness of the
`RegExp | String` template argument and the host-call surface (`stat`,
`readdir`, `mkdir`, `rmdir`) are modelled explicitly.  Asynchronous execution
is modelled as a single-threaded event loop: a nondeterministic small-step
relation picks which in-flight `readdir` completion callback runs next, as the
design prescribes (completions of sibling branches may be delivered in any
order, each callback body runs atomically).
-/

namespace DKTools

/-- A filesystem subtree: each node is a file or a directory with children. -/
inductive FS where
  | file (name : String)
  | dir (name : String) (children : List FS)

/-- `Entity.isFile()` classification of an enumerated child. -/
def FS.isFile : FS → Bool
  | .file _ => true
  | .dir _ _ => false

/-- `Entity.isDirectory()` classification of an enumerated child. -/
def FS.isDirectory : FS → Bool
  | .file _ => false
  | .dir _ _ => true

/-- `Entity.getFullName()`: the last path segment of the entity. -/
def FS.fullName : FS → String
  | .file n => n
  | .dir n _ => n

/-- The direct children a host `readdir` of this node reports (empty for a file). -/
def FS.childList : FS → List FS
  | .file _ => []
  | .dir _ cs => cs

/-- The closed status vocabulary of `DKTools.IO`, named as in the source. -/
inductive Status where
  | ok
  | waitForAsyncOperation
  | errorNotLocalMode
  | errorPathDoesNotExist
  | errorCallbackIsNotAvailable
  | errorOptionsIsNotAvailable
  | errorDirectoryAlreadyExists
  | errorDirectoryIsNotEmpty
  | errorOverwritingIsNotAvailable
  | errorDecompressingData
  | errorParsingData
deriving Repr, DecidableEq

/-- The `{ data, status }` envelope returned by the enumeration operations. -/
structure Result where
  data : Option (List FS)
  status : Status

/-- Host filesystem primitives the layer can invoke (spec section 6: listing,
create, remove, existence check, each in a blocking and a callback shape). -/
inductive HostOp where
  | stat
  | readdirSync
  | readdir
  | mkdirSync
  | mkdir
  | rmdirSync
  | rmdir
deriving Repr, DecidableEq

/-- The JavaScript `object.template` argument.  A `RegExp` is modelled by its
`test` predicate on the full name.  `otherFalsy` covers an absent template and
every other falsy value (`undefined`, `null`, `0`, `false`); `otherTruthy`
covers every truthy value that is neither a `RegExp` nor a string (for example
a number or a plain object). -/
inductive Template where
  | regex (test : String → Bool)
  | str (s : String)
  | otherTruthy
  | otherFalsy

/-- The filter `getAll` applies to raw names (`Directory.js` lines 490-494):
`template instanceof RegExp` filters by `test`; a string filters by `===`;
any other value applies no filtering. -/
def matchGetAll : Template → String → Bool
  | .regex p, n => p n
  | .str s, n => n == s
  | .otherTruthy, _ => true
  | .otherFalsy, _ => true

/-- The per-entity test of `findFiles` / `findDirectories` (`Directory.js`
lines 197-201 and 348-352): `if (template instanceof RegExp &&
template.test(fullName)) push; else if (!template || fullName === template)
push`.  A `RegExp` is truthy and never strictly equal to a string, so a
non-matching `RegExp` falls through both branches; an empty string is falsy;
a truthy value that is neither `RegExp` nor string fails both branches. -/
def matchFind : Template → String → Bool
  | .regex p, n => p n
  | .str s, n => s == "" || n == s
  | .otherTruthy, _ => false
  | .otherFalsy, _ => true

/-- `const searchLimit = object.searchLimit || 1`: an absent (or zero, hence
falsy) search limit defaults to `1`. -/
def effSearchLimit : Option Nat → Nat
  | none => 1
  | some n => if n = 0 then 1 else n

/-- The options object of the `getAll` / `find*` family.  `onSuccess` records
whether a success callback function was supplied (`DKTools.Utils.isFunction`). -/
structure DirOpts where
  sync : Bool
  template : Template
  onSuccess : Bool
  searchLimit : Option Nat

/-- The entity list `getAll` builds from the names a `readdir` reports
(`Directory.js` lines 489-509): names are filtered by the template, then each
surviving name is wrapped as a `File` or `Directory` entity.  In the tree
model every child is one of the two, so the wrapping is the identity. -/
def getAllData (tmpl : Template) (node : FS) : List FS :=
  node.childList.filter (fun e => matchGetAll tmpl e.fullName)

/-- `DKTools.IO.Directory.prototype.getAll` (`Directory.js` lines 473-530),
instrumented with the list of host calls it performs.  `localMode` is the
trust-level gate `DKTools.IO.isLocalMode()`; `target` is `some node` when
`this.exists()` holds and the path denotes the subtree `node`.  Note that on
the asynchronous branch the callback-presence check (line 516) runs only
after the existence check (line 482). -/
def getAll (localMode : Bool) (target : Option FS) (o : Option DirOpts) :
    Result × List HostOp :=
  match o with
  | none => (⟨none, .errorOptionsIsNotAvailable⟩, [])
  | some o =>
    if localMode = false then (⟨none, .errorNotLocalMode⟩, [])
    else
      match target with
      | none => (⟨none, .errorPathDoesNotExist⟩, [.stat])
      | some node =>
        if o.sync then
          (⟨some (getAllData o.template node), .ok⟩, [.stat, .readdirSync])
        else if o.onSuccess = false then
          (⟨none, .errorCallbackIsNotAvailable⟩, [.stat])
        else
          (⟨none, .waitForAsyncOperation⟩, [.stat, .readdir])

/-- `DKTools.IO.Directory.prototype.getDirectories` (`Directory.js` lines
705-729): the synchronous branch post-filters the `getAll` result to
directories; the asynchronous branch first requires a success callback, then
delegates to `getAll` with a wrapped callback.  The options object is a
required argument (the source dereferences `object.sync` unconditionally). -/
def getDirectories (localMode : Bool) (target : Option FS) (o : DirOpts) :
    Result × List HostOp :=
  if o.sync then
    match getAll localMode target (some o) with
    | (r, ops) =>
      if r.status = .ok then
        (⟨r.data.map (List.filter FS.isDirectory), .ok⟩, ops)
      else (r, ops)
  else if o.onSuccess = false then
    (⟨none, .errorCallbackIsNotAvailable⟩, [])
  else
    getAll localMode target (some o)

/-- The closure state of a synchronous `find*` walk (`Directory.js` lines
188-190 and 340-342): the accumulated result array and the budget counter
`total`.  `processed` is declared by the source but only ever incremented
inside the asynchronous completion callback, so on the synchronous path it
stays `0`; it is carried here to state that fact.  Two instrumentation fields
record the walk history: `visited` lists every directory whose enumeration
was issued (one `getAll` per entry), and `totals` records every value the
`total` counter takes, in order. -/
structure SState where
  acc : List FS
  total : Nat
  processed : Nat
  visited : List FS
  totals : List Nat

/-- One entity of `processData` in `findFiles` (`Directory.js` lines 192-208)
fused with the synchronous `processDirectory` (lines 210-217): a file child is
collected when the template admits it; a directory child is descended into
immediately (the synchronous recursion completes a subtree before the next
sibling is examined) when the budget `total < searchLimit` still holds, and
skipped entirely otherwise.  The `fuel` argument is a termination device
only: a descent consumes one unit, and since every descent also requires
`total < limit` and increments `total`, the wrapper's choice `fuel = limit`
keeps `limit ≤ fuel + total` everywhere, so the fuel-exhausted directory case
coincides with the failed budget check (see `fStep_fuel_stable`). -/
def fStep (tmpl : Template) (limit : Nat) : Nat → SState → FS → SState
  | 0, s, e =>
      match e with
      | FS.file n =>
          if matchFind tmpl n then { s with acc := s.acc ++ [FS.file n] } else s
      | FS.dir _ _ => s
  | fuel + 1, s, e =>
      match e with
      | FS.file n =>
          if matchFind tmpl n then { s with acc := s.acc ++ [FS.file n] } else s
      | FS.dir n cs =>
          if s.total < limit then
            cs.foldl (fStep tmpl limit fuel)
              { s with total := s.total + 1, visited := s.visited ++ [FS.dir n cs],
                       totals := s.totals ++ [s.total + 1] }
          else s

/-- One entity of `processData` in `findDirectories` (`Directory.js` lines
344-360) fused with the synchronous `processDirectory` (lines 362-369).  The
entities handed to `processData` come from `getDirectories`, whose
`isDirectory` post-filter drops file children, so a file child is skipped
here; every directory child is matched against the template and,
independently, descended into while the budget allows.  Fuel as in `fStep`. -/
def dStep (tmpl : Template) (limit : Nat) : Nat → SState → FS → SState
  | 0, s, e =>
      match e with
      | FS.file _ => s
      | FS.dir n cs =>
          if matchFind tmpl n then { s with acc := s.acc ++ [FS.dir n cs] } else s
  | fuel + 1, s, e =>
      match e with
      | FS.file _ => s
      | FS.dir n cs =>
          let s1 : SState :=
            if matchFind tmpl n then { s with acc := s.acc ++ [FS.dir n cs] } else s
          if s1.total < limit then
            cs.foldl (dStep tmpl limit fuel)
              { s1 with total := s1.total + 1, visited := s1.visited ++ [FS.dir n cs],
                        totals := s1.totals ++ [s1.total + 1] }
          else s1

/-- Initial closure state: `total = 1` (the root), `processed = 0`, the root
already scheduled for enumeration. -/
def initSState (root : FS) : SState :=
  ⟨[], 1, 0, [root], [1]⟩

/-- The complete synchronous walk of `findFiles` after its preconditions:
`processDirectory(this)` enumerates the root and `processData` consumes the
children. -/
def findFilesSyncRun (tmpl : Template) (limit : Nat) (root : FS) : SState :=
  root.childList.foldl (fStep tmpl limit limit) (initSState root)

/-- The complete synchronous walk of `findDirectories` after its
preconditions. -/
def findDirectoriesSyncRun (tmpl : Template) (limit : Nat) (root : FS) : SState :=
  root.childList.foldl (dStep tmpl limit limit) (initSState root)

/-- `DKTools.IO.Directory.prototype.findFiles` (`Directory.js` lines 171-243):
the precondition cascade (options object, local mode, asynchronous callback,
existence, in that order), then either the full synchronous walk with status
`OK` or the pending sentinel `WAIT_FOR_ASYNC_OPERATION`. -/
def findFiles (localMode : Bool) (target : Option FS) (o : Option DirOpts) : Result :=
  match o with
  | none => ⟨none, .errorOptionsIsNotAvailable⟩
  | some o =>
    if localMode = false then ⟨none, .errorNotLocalMode⟩
    else if o.sync = false ∧ o.onSuccess = false then
      ⟨none, .errorCallbackIsNotAvailable⟩
    else
      match target with
      | none => ⟨none, .errorPathDoesNotExist⟩
      | some root =>
        if o.sync then
          ⟨some (findFilesSyncRun o.template (effSearchLimit o.searchLimit) root).acc, .ok⟩
        else ⟨none, .waitForAsyncOperation⟩

/-- `DKTools.IO.Directory.prototype.findDirectories` (`Directory.js` lines
323-395): same precondition cascade, then the directory walk. -/
def findDirectories (localMode : Bool) (target : Option FS) (o : Option DirOpts) : Result :=
  match o with
  | none => ⟨none, .errorOptionsIsNotAvailable⟩
  | some o =>
    if localMode = false then ⟨none, .errorNotLocalMode⟩
    else if o.sync = false ∧ o.onSuccess = false then
      ⟨none, .errorCallbackIsNotAvailable⟩
    else
      match target with
      | none => ⟨none, .errorPathDoesNotExist⟩
      | some root =>
        if o.sync then
          ⟨some (findDirectoriesSyncRun o.template (effSearchLimit o.searchLimit) root).acc, .ok⟩
        else ⟨none, .waitForAsyncOperation⟩

/-- The closure state of an asynchronous `find*` invocation after its
preconditions have passed (`Directory.js` lines 188-190 / 340-342): the
accumulated result array, the live counters `total` and `processed`, the
multiset of directories whose enumeration is in flight (scheduled but not yet
delivered), and the list of arguments with which the caller's `onSuccess`
continuation has been invoked so far. -/
structure AState where
  acc : List FS
  total : Nat
  processed : Nat
  pending : List FS
  fired : List Result

/-- `processData` body of the asynchronous `findFiles` for one entity
(`Directory.js` lines 192-207): a matching file child is collected; a
directory child is admitted under the budget (`total++`, one more `getAll`
scheduled) or skipped. -/
def fProcEntity (tmpl : Template) (limit : Nat) (s : AState) (e : FS) : AState :=
  match e with
  | FS.file n =>
      if matchFind tmpl n then { s with acc := s.acc ++ [FS.file n] } else s
  | FS.dir n cs =>
      if s.total < limit then
        { s with total := s.total + 1, pending := s.pending ++ [FS.dir n cs] }
      else s

/-- `processData` body of the asynchronous `findDirectories` for one entity
(`Directory.js` lines 344-359): the entity (a directory, by the
`getDirectories` filter) is matched against the template and, independently,
admitted for descent while the budget allows. -/
def dProcEntity (tmpl : Template) (limit : Nat) (s : AState) (e : FS) : AState :=
  let s1 : AState :=
    if matchFind tmpl e.fullName then { s with acc := s.acc ++ [e] } else s
  if s1.total < limit then
    { s1 with total := s1.total + 1, pending := s1.pending ++ [e] }
  else s1

/-- The completion test run at the end of every `onSuccess` callback
(`Directory.js` lines 228-230 / 380-382): when `total === processed` the
caller's success continuation receives `{ data: <accumulator>, status: OK }`. -/
def fireCheck (s : AState) : AState :=
  if s.total = s.processed then
    { s with fired := s.fired ++ [⟨some s.acc, Status.ok⟩] }
  else s

/-- The whole body of one `onSuccess` completion callback (`Directory.js`
lines 223-231 / 375-383): `processed++`, then `processData` over the entities
the finished enumeration delivered, then the completion test.  `enum d` is
the data of the enumeration of `d` (all children for `findFiles` via
`getAll`; only directory children for `findDirectories` via
`getDirectories`). -/
def finishTask (enum : FS → List FS) (proc : AState → FS → AState)
    (s : AState) (d : FS) : AState :=
  fireCheck ((enum d).foldl proc { s with processed := s.processed + 1 })

/-- One turn of the single-threaded event loop: some in-flight enumeration
(chosen nondeterministically, as the design leaves completion order of
sibling branches unspecified) delivers its result and its callback body runs
atomically. -/
inductive MStep (enum : FS → List FS) (proc : AState → FS → AState) :
    AState → AState → Prop where
  | complete (s : AState) (l r : List FS) (d : FS) (h : s.pending = l ++ d :: r) :
      MStep enum proc s (finishTask enum proc { s with pending := l ++ r } d)

/-- The enumeration each `findFiles` branch schedules: `getAll` with no
template, hence all children. -/
def fEnum (d : FS) : List FS := d.childList

/-- The enumeration each `findDirectories` branch schedules:
`getDirectories`, i.e. the children post-filtered to directories. -/
def dEnum (d : FS) : List FS := d.childList.filter FS.isDirectory

/-- Event-loop step of an asynchronous `findFiles` invocation. -/
abbrev FStep (tmpl : Template) (limit : Nat) : AState → AState → Prop :=
  MStep fEnum (fProcEntity tmpl limit)

/-- Event-loop step of an asynchronous `findDirectories` invocation. -/
abbrev DStep (tmpl : Template) (limit : Nat) : AState → AState → Prop :=
  MStep dEnum (dProcEntity tmpl limit)

/-- Reachability (zero or more event-loop turns) for `findFiles`. -/
abbrev ReachF (tmpl : Template) (limit : Nat) : AState → AState → Prop :=
  Relation.ReflTransGen (FStep tmpl limit)

/-- Reachability (zero or more event-loop turns) for `findDirectories`. -/
abbrev ReachD (tmpl : Template) (limit : Nat) : AState → AState → Prop :=
  Relation.ReflTransGen (DStep tmpl limit)

/-- State of an asynchronous `find*` invocation at the moment the entry
point returns `WAIT_FOR_ASYNC_OPERATION`: `total = 1`, `processed = 0`,
the root's enumeration in flight, nothing collected, nothing fired. -/
def initAState (root : FS) : AState :=
  ⟨[], 1, 0, [root], []⟩

/-- `DKTools.IO.Directory.prototype.create` (`Directory.js` lines 36-48),
instrumented with host calls: local-mode gate, existence guard, then
`fs.mkdirSync`. -/
def create (localMode : Bool) (dirExists : Bool) : Status × List HostOp :=
  if localMode = false then (.errorNotLocalMode, [])
  else if dirExists then (.errorDirectoryAlreadyExists, [.stat])
  else (.ok, [.stat, .mkdirSync])

/-- `DKTools.IO.Directory.prototype.createAsync` (`Directory.js` lines
68-86).  The promise executor lacks a `return` after each early `resolve`, so
`this.exists()` and `fs.mkdir` are executed unconditionally; the promise
settles with the first `resolve`/`reject`, which is the guard result when a
guard trips (the `fs.mkdir` callback runs later).  `mkdirOk` tells whether
the host `mkdir` call succeeds; `Except.error ()` models a rejected promise. -/
def createAsync (localMode : Bool) (dirExists : Bool) (mkdirOk : Bool) :
    Except Unit Status × List HostOp :=
  let settled : Except Unit Status :=
    if localMode = false then .ok .errorNotLocalMode
    else if dirExists then .ok .errorDirectoryAlreadyExists
    else if mkdirOk then .ok .ok
    else .error ()
  (settled, [.stat, .mkdir])

/-- `DKTools.IO.Directory.prototype.isEmpty` (`Directory.js` lines 1160-1164)
issues a synchronous `getAll` (existence check plus `readdirSync`) and tests
the resulting array for emptiness. -/
def isEmptyOps : List HostOp := [.stat, .readdirSync]

/-- `DKTools.IO.Directory.prototype.remove` (`Directory.js` lines 1299-1330),
instrumented with host calls: local-mode gate, existence guard, emptiness
guard via `isEmpty`, then `fs.rmdirSync` or a scheduled `fs.rmdir`. -/
def remove (localMode : Bool) (target : Option FS) (sync : Bool) :
    Status × List HostOp :=
  if localMode = false then (.errorNotLocalMode, [])
  else
    match target with
    | none => (.errorPathDoesNotExist, [.stat])
    | some node =>
      if node.childList.length = 0 then
        if sync then (.ok, .stat :: isEmptyOps ++ [.rmdirSync])
        else (.waitForAsyncOperation, .stat :: isEmptyOps ++ [.rmdir])
      else (.errorDirectoryIsNotEmpty, .stat :: isEmptyOps)

/-- The `localStorage` string store behind `DKTools.IO.WebStorage`. -/
def Store : Type := String → Option String

/-- `DKTools.IO.WebStorage.exists` (`WebStorage.js` lines 22-24). -/
def storeHasKey (store : Store) (key : String) : Bool :=
  (store key).isSome

/-- `localStorage.setItem`. -/
def setItem (store : Store) (key value : String) : Store :=
  fun k => if k = key then some value else store k

/-- `localStorage.removeItem`. -/
def removeItem (store : Store) (key : String) : Store :=
  fun k => if k = key then none else store k

/-- Options of `WebStorage.save` (`WebStorage.js` lines 160-165): the
`overwrite` flag (defaulted to `true` via `_.defaultTo`) and the two
independently toggled pipeline stages. -/
structure SaveOpts where
  overwrite : Option Bool
  stringify : Bool
  compress : Bool

/-- Options of `WebStorage.load` (`WebStorage.js` lines 47-53). -/
structure LoadOpts where
  decompress : Bool
  parse : Bool

/-- What `WebStorage.load` hands back in `data`: the stored (possibly
decompressed) string when the parse stage is off, or the parsed value. -/
inductive LoadData (α : Type) where
  | raw (s : String)
  | parsed (v : α)

/-- `DKTools.IO.WebStorage.save` (`WebStorage.js` lines 168-188).  The
external collaborators are parameters: `stringifyFn` is `JSON.stringify`,
`compressFn` is `LZString.compressToBase64`, and `coerce` is the string
coercion `localStorage.setItem` applies when the stringify stage is off.
Stages run in fixed order: stringify, then compress, then the store write. -/
def save {α : Type} (stringifyFn : α → String) (compressFn : String → String)
    (coerce : α → String) (store : Store) (key : String) (value : α)
    (o : SaveOpts) : Status × Store :=
  let overwrite := o.overwrite.getD true
  if overwrite = false ∧ storeHasKey store key then
    (.errorOverwritingIsNotAvailable, store)
  else
    let data : String := if o.stringify then stringifyFn value else coerce value
    let data : String := if o.compress then compressFn data else data
    (.ok, setItem store key data)

/-- `DKTools.IO.WebStorage.load` (`WebStorage.js` lines 56-82).
`decompressFn` is `LZString.decompressFromBase64` and `parseFn` is
`JSON.parse`; `Except.error ()` models a thrown exception.  The JavaScript
`if (data)` guard skips both stages when the stored string is empty (falsy).
Stages run in fixed order: decompress, then parse, each aborting the
pipeline with its stage-specific status on failure. -/
def load {α : Type} (decompressFn : String → Except Unit String)
    (parseFn : String → Except Unit α) (store : Store) (key : String)
    (o : LoadOpts) : Option (LoadData α) × Status :=
  if storeHasKey store key = false then (none, .errorPathDoesNotExist)
  else
    let data : String := (store key).getD ""
    if data = "" then (some (.raw data), .ok)
    else
      match (if o.decompress then decompressFn data else .ok data) with
      | .error _ => (none, .errorDecompressingData)
      | .ok d =>
        if o.parse then
          match parseFn d with
          | .error _ => (none, .errorParsingData)
          | .ok v => (some (.parsed v), .ok)
        else (some (.raw d), .ok)

/-- `DKTools.IO.WebStorage.rename` (`WebStorage.js` lines 128-143): existence
and overwrite guards, then the value is written under `newKey` and the entry
under `oldKey` is removed, in that order. -/
def rename (store : Store) (oldKey newKey : String) (overwrite : Bool) :
    Status × Store :=
  if storeHasKey store oldKey = false then (.errorPathDoesNotExist, store)
  else if overwrite = false ∧ storeHasKey store newKey then
    (.errorOverwritingIsNotAvailable, store)
  else
    let data := (store oldKey).getD "null"
    (.ok, removeItem (setItem store newKey data) oldKey)

/-- The sample tree of the specification scenario: a root holding `a.txt`,
`b.png` and a subdirectory `sub/` with `c.txt`. -/
def sampleRoot : FS :=
  FS.dir "root" [FS.file "a.txt", FS.file "b.png", FS.dir "sub" [FS.file "c.txt"]]

/-- The scenario's `RegExp` `/\.txt$/`, modelled as the suffix test it
performs on a full name. -/
def dotTxtTest (s : String) : Bool :=
  s.data.reverse.take 4 == ['t', 'x', 't', '.']

/-- A predicate preserved by each fold step is preserved by the whole fold. -/
lemma foldl_pred {σ α : Type} {P : σ → Prop} {f : σ → α → σ}
    (hf : ∀ s a, P s → P (f s a)) :
    ∀ (l : List α) (s : σ), P s → P (l.foldl f s) := by
  intro l
  induction l with
  | nil => intro s h; simpa using h
  | cons a rest ih => intro s h; rw [List.foldl_cons]; exact ih _ (hf s a h)

/-- `effSearchLimit` is always positive (the `|| 1` default). -/
lemma one_le_effSearchLimit (osl : Option Nat) : 1 ≤ effSearchLimit osl := by
  cases osl with
  | none => simp [effSearchLimit]
  | some n => simp only [effSearchLimit]; split <;> omega

/-- Common shape of one `processData` entity step of the two asynchronous
machines: it appends some entities to the accumulator, schedules some
directories (raising `total` by exactly their number), leaves `processed`,
`fired` and the existing queue untouched, and keeps `total` under the budget. -/
def ProcSpec (limit : Nat) (proc : AState → FS → AState) : Prop :=
  ∀ s e, ∃ adds grows : List FS,
    proc s e = { s with
                 acc := s.acc ++ grows,
                 total := s.total + adds.length,
                 pending := s.pending ++ adds } ∧
    (s.total ≤ limit → s.total + adds.length ≤ limit)

lemma procSpec_fProcEntity (tmpl : Template) (limit : Nat) :
    ProcSpec limit (fProcEntity tmpl limit) := by
  intro s e
  cases e with
  | file n =>
      by_cases h : matchFind tmpl n = true
      · exact ⟨[], [FS.file n], by simp [fProcEntity, h], by simp⟩
      · exact ⟨[], [], by simp [fProcEntity, h], by simp⟩
  | dir n cs =>
      by_cases h : s.total < limit
      · exact ⟨[FS.dir n cs], [], by simp [fProcEntity, h],
          fun _ => by simp only [List.length_cons, List.length_nil]; omega⟩
      · exact ⟨[], [], by simp [fProcEntity, h], by simp⟩

lemma procSpec_dProcEntity (tmpl : Template) (limit : Nat) :
    ProcSpec limit (dProcEntity tmpl limit) := by
  intro s e
  by_cases hm : matchFind tmpl e.fullName = true
  · by_cases h : s.total < limit
    · exact ⟨[e], [e], by simp [dProcEntity, hm, h],
        fun _ => by simp only [List.length_cons, List.length_nil]; omega⟩
    · exact ⟨[], [e], by simp [dProcEntity, hm, h], by simp⟩
  · by_cases h : s.total < limit
    · exact ⟨[e], [], by simp [dProcEntity, hm, h],
        fun _ => by simp only [List.length_cons, List.length_nil]; omega⟩
    · exact ⟨[], [], by simp [dProcEntity, hm, h], by simp⟩

lemma foldl_procSpec {limit : Nat} {proc : AState → FS → AState}
    (hp : ProcSpec limit proc) :
    ∀ (es : List FS) (s : AState), ∃ adds grows : List FS,
      es.foldl proc s = { s with
                          acc := s.acc ++ grows,
                          total := s.total + adds.length,
                          pending := s.pending ++ adds } ∧
      (s.total ≤ limit → s.total + adds.length ≤ limit) := by
  intro es
  induction es with
  | nil => intro s; exact ⟨[], [], by simp, by simp⟩
  | cons e rest ih =>
      intro s
      obtain ⟨a1, g1, he1, hb1⟩ := hp s e
      obtain ⟨a2, g2, he2, hb2⟩ := ih (proc s e)
      refine ⟨a1 ++ a2, g1 ++ g2, ?_, ?_⟩
      · rw [List.foldl_cons, he2, he1]
        simp [List.append_assoc, List.length_append, Nat.add_assoc]
      · intro hl
        rw [he1] at hb2
        simp only [List.length_append] at hb2 ⊢
        have h1 := hb1 hl
        omega

/-- The fan-in invariant of an asynchronous `find*` run: `total` counts the
root plus every admitted directory, so it always equals completed plus
in-flight enumerations; it never exceeds the budget; and the success
continuation has fired exactly when nothing is in flight any more, with the
accumulator collected so far and status `OK`. -/
def MachineInv (limit : Nat) (s : AState) : Prop :=
  s.total = s.processed + s.pending.length ∧ s.total ≤ limit ∧
  (s.pending = [] → s.fired = [⟨some s.acc, Status.ok⟩]) ∧
  (s.pending ≠ [] → s.fired = [])

lemma machineInv_init (limit : Nat) (root : FS) (hl : 1 ≤ limit) :
    MachineInv limit (initAState root) := by
  refine ⟨rfl, hl, ?_, ?_⟩ <;> simp [initAState]

/-- Field equations of `fireCheck`: it only ever touches `fired`. -/
lemma fireCheck_fields (s : AState) :
    (fireCheck s).total = s.total ∧ (fireCheck s).processed = s.processed ∧
    (fireCheck s).acc = s.acc ∧ (fireCheck s).pending = s.pending ∧
    (s.total = s.processed → (fireCheck s).fired = s.fired ++ [⟨some s.acc, Status.ok⟩]) ∧
    (s.total ≠ s.processed → (fireCheck s).fired = s.fired) := by
  unfold fireCheck
  by_cases h : s.total = s.processed
  · rw [if_pos h]; exact ⟨rfl, rfl, rfl, rfl, fun _ => rfl, fun hc => absurd h hc⟩
  · rw [if_neg h]; exact ⟨rfl, rfl, rfl, rfl, fun hc => absurd hc h, fun _ => rfl⟩

/-- `fireCheck` on an explicit state with nothing fired yet: the completion
test fires exactly when the in-flight queue is empty (given the fan-in count
equation), establishing the full machine invariant. -/
lemma machineInv_fireCheck (limit : Nat) (a : List FS) (t p : Nat) (pend : List FS)
    (ht : t = p + pend.length) (hl : t ≤ limit) :
    MachineInv limit (fireCheck ⟨a, t, p, pend, []⟩) := by
  unfold MachineInv fireCheck
  by_cases hf : t = p
  · have hpnil : pend = [] := by
      have h0 : pend.length = 0 := by omega
      exact List.length_eq_zero.mp h0
    subst hpnil
    rw [if_pos hf]
    exact ⟨ht, hl, fun _ => rfl, fun hc => absurd rfl hc⟩
  · rw [if_neg hf]
    have hpne : pend ≠ [] := by
      intro hc
      subst hc
      simp at ht
      exact hf ht
    exact ⟨ht, hl, fun hc => absurd hc hpne, fun _ => rfl⟩

lemma machineInv_step {limit : Nat} {enum : FS → List FS}
    {proc : AState → FS → AState} (hp : ProcSpec limit proc)
    {s s2 : AState} (hstep : MStep enum proc s s2) (hinv : MachineInv limit s) :
    MachineInv limit s2 := by
  obtain ⟨htot, hle, hfe, hfne⟩ := hinv
  cases hstep with
  | complete l r d hpend =>
      have hne : s.pending ≠ [] := by rw [hpend]; simp
      have hf0 : s.fired = [] := hfne hne
      have hlen : s.pending.length = l.length + r.length + 1 := by
        rw [hpend]
        simp only [List.length_append, List.length_cons]
        omega
      rw [hlen] at htot
      obtain ⟨adds, grows, he, hb⟩ :=
        foldl_procSpec hp (enum d) { s with pending := l ++ r, processed := s.processed + 1 }
      unfold finishTask
      rw [he]
      show MachineInv limit (fireCheck
        ⟨s.acc ++ grows, s.total + adds.length, s.processed + 1, (l ++ r) ++ adds, s.fired⟩)
      rw [hf0]
      apply machineInv_fireCheck
      · simp only [List.length_append]
        omega
      · exact hb hle

lemma machineInv_reach {limit : Nat} {enum : FS → List FS}
    {proc : AState → FS → AState} (hp : ProcSpec limit proc) {s0 s : AState}
    (h : Relation.ReflTransGen (MStep enum proc) s0 s)
    (h0 : MachineInv limit s0) : MachineInv limit s := by
  induction h with
  | refl => exact h0
  | tail _ hbc ih => exact machineInv_step hp hbc ih

/-- While something is in flight, the event loop can always take a turn. -/
lemma mstep_progress {enum : FS → List FS} {proc : AState → FS → AState}
    {s : AState} (h : s.pending ≠ []) : ∃ s2, MStep enum proc s s2 := by
  cases hp : s.pending with
  | nil => exact absurd hp h
  | cons d rest =>
      exact ⟨_, MStep.complete s [] rest d (by simpa using hp)⟩

/-- Once nothing is in flight, no callback can ever run again. -/
lemma mstep_terminal {enum : FS → List FS} {proc : AState → FS → AState}
    {s s2 : AState} (h : s.pending = []) : ¬ MStep enum proc s s2 := by
  intro hstep
  cases hstep with
  | complete l r d hpend =>
      rw [h] at hpend
      exact List.cons_ne_nil d r (List.append_eq_nil.mp hpend.symm).2

/-- Invariant of the synchronous walk state: the budget is respected, every
recorded value of `total` (one entry per change, `1` first) is within the
budget, and `processed` is untouched. -/
def SyncInv (limit : Nat) (s : SState) : Prop :=
  s.total ≤ limit ∧ s.processed = 0 ∧ (∃ rest, s.totals = 1 :: rest) ∧
  (∀ t ∈ s.totals, t ≤ limit)

/-- Admitting one directory under the budget (or skipping it) preserves the
synchronous walk invariant, whatever the per-entity step does afterwards. -/
lemma descend_syncInv {limit : Nat} {f : SState → FS → SState}
    (ih : ∀ s e, SyncInv limit s → SyncInv limit (f s e))
    (s1 : SState) (d : FS) (cs : List FS) (h : SyncInv limit s1) :
    SyncInv limit (if s1.total < limit then
        cs.foldl f { s1 with
                     total := s1.total + 1,
                     visited := s1.visited ++ [d],
                     totals := s1.totals ++ [s1.total + 1] }
      else s1) := by
  by_cases hd : s1.total < limit
  · rw [if_pos hd]
    apply foldl_pred ih
    obtain ⟨h1, h2, ⟨rest, h3⟩, h4⟩ := h
    refine ⟨?_, h2, ⟨rest ++ [s1.total + 1], by rw [h3]; simp⟩, ?_⟩
    · show s1.total + 1 ≤ limit
      omega
    · intro t ht
      have ht2 : t ∈ s1.totals ++ [s1.total + 1] := ht
      simp only [List.mem_append, List.mem_singleton] at ht2
      rcases ht2 with ht2 | ht2
      · exact h4 t ht2
      · omega
  · rw [if_neg hd]
    exact h

lemma fStep_syncInv (tmpl : Template) (limit : Nat) :
    ∀ (fuel : Nat) (s : SState) (e : FS),
      SyncInv limit s → SyncInv limit (fStep tmpl limit fuel s e) := by
  intro fuel
  induction fuel with
  | zero =>
      intro s e h
      cases e with
      | file n =>
          by_cases hm : matchFind tmpl n = true
          · simpa [fStep, hm] using h
          · simpa [fStep, hm] using h
      | dir n cs => simpa [fStep] using h
  | succ fuel ih =>
      intro s e h
      cases e with
      | file n =>
          by_cases hm : matchFind tmpl n = true
          · simpa [fStep, hm] using h
          · simpa [fStep, hm] using h
      | dir n cs =>
          show SyncInv limit (if s.total < limit then
              cs.foldl (fStep tmpl limit fuel)
                { s with total := s.total + 1, visited := s.visited ++ [FS.dir n cs],
                         totals := s.totals ++ [s.total + 1] }
            else s)
          exact descend_syncInv (fun s2 e2 h2 => ih s2 e2 h2) s (FS.dir n cs) cs h

lemma dStep_syncInv (tmpl : Template) (limit : Nat) :
    ∀ (fuel : Nat) (s : SState) (e : FS),
      SyncInv limit s → SyncInv limit (dStep tmpl limit fuel s e) := by
  intro fuel
  induction fuel with
  | zero =>
      intro s e h
      cases e with
      | file n => simpa [dStep] using h
      | dir n cs =>
          by_cases hm : matchFind tmpl n = true
          · simpa [dStep, hm] using h
          · simpa [dStep, hm] using h
  | succ fuel ih =>
      intro s e h
      cases e with
      | file n => simpa [dStep] using h
      | dir n cs =>
          have hs1 : SyncInv limit
              (if matchFind tmpl n then { s with acc := s.acc ++ [FS.dir n cs] } else s) := by
            by_cases hm : matchFind tmpl n = true
            · simpa [hm] using h
            · simpa [hm] using h
          show SyncInv limit
            (if (if matchFind tmpl n then { s with acc := s.acc ++ [FS.dir n cs] } else s).total < limit then
                cs.foldl (dStep tmpl limit fuel)
                  { (if matchFind tmpl n then { s with acc := s.acc ++ [FS.dir n cs] } else s) with
                    total := (if matchFind tmpl n then { s with acc := s.acc ++ [FS.dir n cs] } else s).total + 1,
                    visited := (if matchFind tmpl n then { s with acc := s.acc ++ [FS.dir n cs] } else s).visited ++ [FS.dir n cs],
                    totals := (if matchFind tmpl n then { s with acc := s.acc ++ [FS.dir n cs] } else s).totals ++
                      [(if matchFind tmpl n then { s with acc := s.acc ++ [FS.dir n cs] } else s).total + 1] }
              else (if matchFind tmpl n then { s with acc := s.acc ++ [FS.dir n cs] } else s))
          exact descend_syncInv (fun s2 e2 h2 => ih s2 e2 h2) _ (FS.dir n cs) cs hs1

lemma syncInv_init (limit : Nat) (root : FS) (hl : 1 ≤ limit) :
    SyncInv limit (initSState root) :=
  ⟨hl, rfl, ⟨[], rfl⟩, by intro t ht; simp [initSState] at ht; omega⟩

lemma findFilesSyncRun_syncInv (tmpl : Template) (osl : Option Nat) (root : FS) :
    SyncInv (effSearchLimit osl) (findFilesSyncRun tmpl (effSearchLimit osl) root) :=
  foldl_pred (fStep_syncInv tmpl (effSearchLimit osl) (effSearchLimit osl))
    root.childList (initSState root)
    (syncInv_init (effSearchLimit osl) root (one_le_effSearchLimit osl))

lemma findDirectoriesSyncRun_syncInv (tmpl : Template) (osl : Option Nat) (root : FS) :
    SyncInv (effSearchLimit osl) (findDirectoriesSyncRun tmpl (effSearchLimit osl) root) :=
  foldl_pred (dStep_syncInv tmpl (effSearchLimit osl) (effSearchLimit osl))
    root.childList (initSState root)
    (syncInv_init (effSearchLimit osl) root (one_le_effSearchLimit osl))

/-- With the budget already exhausted (`limit ≤ total`), a `findFiles` step
only collects matching files: it never descends, and `total`, `visited` and
`totals` stay put. -/
lemma fStep_no_descend (tmpl : Template) (limit : Nat) (fuel : Nat) (s : SState)
    (e : FS) (h : limit ≤ s.total) :
    fStep tmpl limit fuel s e =
      if e.isFile && matchFind tmpl e.fullName then { s with acc := s.acc ++ [e] }
      else s := by
  have hd : ¬ s.total < limit := by omega
  cases fuel with
  | zero =>
      cases e with
      | file n => simp [fStep, FS.isFile, FS.fullName]
      | dir n cs => simp [fStep, FS.isFile]
  | succ fuel =>
      cases e with
      | file n => simp [fStep, FS.isFile, FS.fullName]
      | dir n cs => simp [fStep, FS.isFile, hd]

lemma foldl_fStep_no_descend (tmpl : Template) (limit : Nat) (fuel : Nat) :
    ∀ (es : List FS) (s : SState), limit ≤ s.total →
      es.foldl (fStep tmpl limit fuel) s =
        { s with acc := s.acc ++ es.filter (fun e => e.isFile && matchFind tmpl e.fullName) } := by
  intro es
  induction es with
  | nil => intro s h; simp
  | cons e rest ih =>
      intro s h
      rw [List.foldl_cons, fStep_no_descend tmpl limit fuel s e h]
      by_cases hm : (e.isFile && matchFind tmpl e.fullName) = true
      · rw [if_pos hm, ih _ (by simpa using h)]
        simp [List.filter_cons, hm, List.append_assoc]
      · rw [if_neg hm, ih _ h]
        simp [List.filter_cons, hm]

/-- With the budget exhausted, a `findDirectories` step only collects matching
directories and never descends. -/
lemma dStep_no_descend (tmpl : Template) (limit : Nat) (fuel : Nat) (s : SState)
    (e : FS) (h : limit ≤ s.total) :
    dStep tmpl limit fuel s e =
      if e.isDirectory && matchFind tmpl e.fullName then { s with acc := s.acc ++ [e] }
      else s := by
  have hd : ¬ s.total < limit := by omega
  cases fuel with
  | zero =>
      cases e with
      | file n => simp [dStep, FS.isDirectory]
      | dir n cs => simp [dStep, FS.isDirectory, FS.fullName]
  | succ fuel =>
      cases e with
      | file n => simp [dStep, FS.isDirectory]
      | dir n cs =>
          by_cases hm : matchFind tmpl n = true
          · simp [dStep, FS.isDirectory, FS.fullName, hm, hd]
          · simp [dStep, FS.isDirectory, FS.fullName, hm, hd]

lemma foldl_dStep_no_descend (tmpl : Template) (limit : Nat) (fuel : Nat) :
    ∀ (es : List FS) (s : SState), limit ≤ s.total →
      es.foldl (dStep tmpl limit fuel) s =
        { s with acc := s.acc ++ es.filter (fun e => e.isDirectory && matchFind tmpl e.fullName) } := by
  intro es
  induction es with
  | nil => intro s h; simp
  | cons e rest ih =>
      intro s h
      rw [List.foldl_cons, dStep_no_descend tmpl limit fuel s e h]
      by_cases hm : (e.isDirectory && matchFind tmpl e.fullName) = true
      · rw [if_pos hm, ih _ (by simpa using h)]
        simp [List.filter_cons, hm, List.append_assoc]
      · rw [if_neg hm, ih _ h]
        simp [List.filter_cons, hm]

/-- With the budget exhausted, the asynchronous `findFiles` callback body
only collects matching files: nothing new is scheduled. -/
lemma fProcEntity_budget_spent (tmpl : Template) (limit : Nat) (s : AState) (e : FS)
    (h : limit ≤ s.total) :
    fProcEntity tmpl limit s e =
      if e.isFile && matchFind tmpl e.fullName then { s with acc := s.acc ++ [e] }
      else s := by
  have hd : ¬ s.total < limit := by omega
  cases e with
  | file n => simp [fProcEntity, FS.isFile, FS.fullName]
  | dir n cs => simp [fProcEntity, FS.isFile, hd]

lemma foldl_fProcEntity_budget_spent (tmpl : Template) (limit : Nat) :
    ∀ (es : List FS) (s : AState), limit ≤ s.total →
      es.foldl (fProcEntity tmpl limit) s =
        { s with acc := s.acc ++ es.filter (fun e => e.isFile && matchFind tmpl e.fullName) } := by
  intro es
  induction es with
  | nil => intro s h; simp
  | cons e rest ih =>
      intro s h
      rw [List.foldl_cons, fProcEntity_budget_spent tmpl limit s e h]
      by_cases hm : (e.isFile && matchFind tmpl e.fullName) = true
      · rw [if_pos hm, ih _ (by simpa using h)]
        simp [List.filter_cons, hm, List.append_assoc]
      · rw [if_neg hm, ih _ h]
        simp [List.filter_cons, hm]

/-- With the budget exhausted, the asynchronous `findDirectories` callback
body only collects matching directories: nothing new is scheduled. -/
lemma dProcEntity_budget_spent (tmpl : Template) (limit : Nat) (s : AState) (e : FS)
    (h : limit ≤ s.total) :
    dProcEntity tmpl limit s e =
      if matchFind tmpl e.fullName then { s with acc := s.acc ++ [e] }
      else s := by
  by_cases hm : matchFind tmpl e.fullName = true
  · have hd : ¬ ({ s with acc := s.acc ++ [e] } : AState).total < limit := by
      show ¬ s.total < limit
      omega
    simp [dProcEntity, hm, hd]
  · have hd : ¬ s.total < limit := by omega
    simp [dProcEntity, hm, hd]

lemma foldl_dProcEntity_budget_spent (tmpl : Template) (limit : Nat) :
    ∀ (es : List FS) (s : AState), limit ≤ s.total →
      es.foldl (dProcEntity tmpl limit) s =
        { s with acc := s.acc ++ es.filter (fun e => matchFind tmpl e.fullName) } := by
  intro es
  induction es with
  | nil => intro s h; simp
  | cons e rest ih =>
      intro s h
      rw [List.foldl_cons, dProcEntity_budget_spent tmpl limit s e h]
      by_cases hm : matchFind tmpl e.fullName = true
      · rw [if_pos hm, ih _ (by simpa using h)]
        simp [List.filter_cons, hm, List.append_assoc]
      · rw [if_neg hm, ih _ h]
        simp [List.filter_cons, hm]

lemma singleton_decomp {α : Type} {l r : List α} {d x : α}
    (h : [x] = l ++ d :: r) : l = [] ∧ d = x ∧ r = [] := by
  have hlen : 1 = l.length + (r.length + 1) := by
    have h2 := congrArg List.length h
    simpa using h2
  have hl : l = [] := List.length_eq_zero.mp (by omega)
  have hr : r = [] := List.length_eq_zero.mp (by omega)
  subst hl
  subst hr
  simp only [List.nil_append] at h
  injection h with h1 h2
  exact ⟨rfl, h1.symm, rfl⟩

/-- The single event-loop turn of an asynchronous `findFiles` run whose
budget is the default `searchLimit = 1`: the root's enumeration completes,
nothing can be admitted, and the success continuation fires with the
matching direct file children. -/
lemma finishTaskF_limit_one (tmpl : Template) (root : FS) :
    finishTask fEnum (fProcEntity tmpl 1) { initAState root with pending := [] ++ [] } root =
      ⟨root.childList.filter (fun e => e.isFile && matchFind tmpl e.fullName), 1, 1, [],
        [⟨some (root.childList.filter (fun e => e.isFile && matchFind tmpl e.fullName)),
          Status.ok⟩]⟩ := by
  unfold finishTask
  rw [show fEnum root = root.childList from rfl]
  rw [foldl_fProcEntity_budget_spent tmpl 1 root.childList]
  · unfold fireCheck
    rw [if_pos (by show (1 : Nat) = 0 + 1; omega)]
    show (⟨[] ++ root.childList.filter (fun e => e.isFile && matchFind tmpl e.fullName), 1, 1,
      [] ++ [], [] ++ [⟨some ([] ++ root.childList.filter
        (fun e => e.isFile && matchFind tmpl e.fullName)), Status.ok⟩]⟩ : AState) = _
    simp
  · show (1 : Nat) ≤ 1
    omega

/-- The analogous single turn of an asynchronous `findDirectories` run with
the default budget. -/
lemma finishTaskD_limit_one (tmpl : Template) (root : FS) :
    finishTask dEnum (dProcEntity tmpl 1) { initAState root with pending := [] ++ [] } root =
      ⟨(dEnum root).filter (fun e => matchFind tmpl e.fullName), 1, 1, [],
        [⟨some ((dEnum root).filter (fun e => matchFind tmpl e.fullName)), Status.ok⟩]⟩ := by
  unfold finishTask
  rw [foldl_dProcEntity_budget_spent tmpl 1 (dEnum root)]
  · unfold fireCheck
    rw [if_pos (by show (1 : Nat) = 0 + 1; omega)]
    show (⟨[] ++ (dEnum root).filter (fun e => matchFind tmpl e.fullName), 1, 1,
      [] ++ [], [] ++ [⟨some ([] ++ (dEnum root).filter (fun e => matchFind tmpl e.fullName)),
        Status.ok⟩]⟩ : AState) = _
    simp
  · show (1 : Nat) ≤ 1
    omega

/-- With the default budget `searchLimit = 1`, an asynchronous `findFiles`
run has exactly two states: the initial one (root enumeration in flight) and
the terminal one, in which only the root was ever examined and the matching
direct file children were delivered to the success continuation. -/
lemma reachF_limit_one (tmpl : Template) (root : FS) (s : AState)
    (h : ReachF tmpl 1 (initAState root) s) :
    s = initAState root ∨
    (s.pending = [] ∧ s.total = 1 ∧
      s.acc = root.childList.filter (fun e => e.isFile && matchFind tmpl e.fullName) ∧
      s.fired = [⟨some (root.childList.filter (fun e => e.isFile && matchFind tmpl e.fullName)),
        Status.ok⟩]) := by
  induction h with
  | refl => exact Or.inl rfl
  | tail hab hbc ih =>
      rcases ih with hprev | hprev
      · subst hprev
        cases hbc with
        | complete l r d hpend =>
            obtain ⟨hl, hd, hr⟩ := singleton_decomp (show [root] = l ++ d :: r from hpend)
            subst hl
            subst hr
            rw [hd]
            right
            rw [finishTaskF_limit_one]
            exact ⟨rfl, rfl, rfl, rfl⟩
      · exact absurd hbc (mstep_terminal hprev.1)

/-- With the default budget `searchLimit = 1`, an asynchronous
`findDirectories` run has exactly two states: the initial one and the
terminal one, in which only the root was examined and the matching direct
directory children were delivered. -/
lemma reachD_limit_one (tmpl : Template) (root : FS) (s : AState)
    (h : ReachD tmpl 1 (initAState root) s) :
    s = initAState root ∨
    (s.pending = [] ∧ s.total = 1 ∧
      s.acc = (dEnum root).filter (fun e => matchFind tmpl e.fullName) ∧
      s.fired = [⟨some ((dEnum root).filter (fun e => matchFind tmpl e.fullName)),
        Status.ok⟩]) := by
  induction h with
  | refl => exact Or.inl rfl
  | tail hab hbc ih =>
      rcases ih with hprev | hprev
      · subst hprev
        cases hbc with
        | complete l r d hpend =>
            obtain ⟨hl, hd, hr⟩ := singleton_decomp (show [root] = l ++ d :: r from hpend)
            subst hl
            subst hr
            rw [hd]
            right
            rw [finishTaskD_limit_one]
            exact ⟨rfl, rfl, rfl, rfl⟩
      · exact absurd hbc (mstep_terminal hprev.1)

lemma foldl_acc_eq {f : SState → FS → SState}
    (hf : ∀ s e, (f s e).acc = s.acc) :
    ∀ (es : List FS) (s : SState), (es.foldl f s).acc = s.acc := by
  intro es
  induction es with
  | nil => intro s; rfl
  | cons e rest ih => intro s; rw [List.foldl_cons, ih, hf]

/-- A truthy template that is neither a `RegExp` nor a string admits no file,
so a `findFiles` step never grows the accumulator. -/
lemma fStep_otherTruthy_acc (limit : Nat) :
    ∀ (fuel : Nat) (s : SState) (e : FS),
      (fStep Template.otherTruthy limit fuel s e).acc = s.acc := by
  intro fuel
  induction fuel with
  | zero =>
      intro s e
      cases e with
      | file n => simp [fStep, matchFind]
      | dir n cs => simp [fStep]
  | succ fuel ih =>
      intro s e
      cases e with
      | file n => simp [fStep, matchFind]
      | dir n cs =>
          show (if s.total < limit then
              cs.foldl (fStep Template.otherTruthy limit fuel)
                { s with total := s.total + 1, visited := s.visited ++ [FS.dir n cs],
                         totals := s.totals ++ [s.total + 1] }
            else s).acc = s.acc
          by_cases hd : s.total < limit
          · rw [if_pos hd, foldl_acc_eq (fun s2 e2 => ih s2 e2)]
          · rw [if_neg hd]

/-- The same for a `findDirectories` step: the truthy non-pattern non-string
template admits no directory either. -/
lemma dStep_otherTruthy_acc (limit : Nat) :
    ∀ (fuel : Nat) (s : SState) (e : FS),
      (dStep Template.otherTruthy limit fuel s e).acc = s.acc := by
  intro fuel
  induction fuel with
  | zero =>
      intro s e
      cases e with
      | file n => simp [dStep]
      | dir n cs => simp [dStep, matchFind]
  | succ fuel ih =>
      intro s e
      cases e with
      | file n => simp [dStep]
      | dir n cs =>
          show (if s.total < limit then
              cs.foldl (dStep Template.otherTruthy limit fuel)
                { s with total := s.total + 1, visited := s.visited ++ [FS.dir n cs],
                         totals := s.totals ++ [s.total + 1] }
            else s).acc = s.acc
          by_cases hd : s.total < limit
          · rw [if_pos hd, foldl_acc_eq (fun s2 e2 => ih s2 e2)]
          · rw [if_neg hd]

lemma foldl_total_mono {f : SState → FS → SState}
    (hf : ∀ s e, s.total ≤ (f s e).total) :
    ∀ (es : List FS) (s : SState), s.total ≤ (es.foldl f s).total := by
  intro es
  induction es with
  | nil => intro s; exact Nat.le_refl _
  | cons e rest ih => intro s; exact le_trans (hf s e) (ih (f s e))

lemma fStep_total_mono (tmpl : Template) (limit : Nat) :
    ∀ (fuel : Nat) (s : SState) (e : FS), s.total ≤ (fStep tmpl limit fuel s e).total := by
  intro fuel
  induction fuel with
  | zero =>
      intro s e
      cases e with
      | file n =>
          by_cases hm : matchFind tmpl n = true
          · simp [fStep, hm]
          · simp [fStep, hm]
      | dir n cs => simp [fStep]
  | succ fuel ih =>
      intro s e
      cases e with
      | file n =>
          by_cases hm : matchFind tmpl n = true
          · simp [fStep, hm]
          · simp [fStep, hm]
      | dir n cs =>
          show s.total ≤ (if s.total < limit then
              cs.foldl (fStep tmpl limit fuel)
                { s with total := s.total + 1, visited := s.visited ++ [FS.dir n cs],
                         totals := s.totals ++ [s.total + 1] }
            else s).total
          by_cases hd : s.total < limit
          · rw [if_pos hd]
            have hmono := foldl_total_mono (fun s2 e2 => ih s2 e2) cs
              { s with total := s.total + 1, visited := s.visited ++ [FS.dir n cs],
                       totals := s.totals ++ [s.total + 1] }
            have hstep : s.total ≤ s.total + 1 := Nat.le_succ _
            exact le_trans hstep hmono
          · rw [if_neg hd]

lemma dStep_total_mono (tmpl : Template) (limit : Nat) :
    ∀ (fuel : Nat) (s : SState) (e : FS), s.total ≤ (dStep tmpl limit fuel s e).total := by
  intro fuel
  induction fuel with
  | zero =>
      intro s e
      cases e with
      | file n => simp [dStep]
      | dir n cs =>
          by_cases hm : matchFind tmpl n = true
          · simp [dStep, hm]
          · simp [dStep, hm]
  | succ fuel ih =>
      intro s e
      cases e with
      | file n => simp [dStep]
      | dir n cs =>
          by_cases hm : matchFind tmpl n = true
          · simp only [dStep, hm, if_true]
            by_cases hd : s.total < limit
            · rw [if_pos hd]
              have hmono := foldl_total_mono (fun s2 e2 => ih s2 e2) cs
                { s with acc := s.acc ++ [FS.dir n cs], total := s.total + 1,
                         visited := s.visited ++ [FS.dir n cs],
                         totals := s.totals ++ [s.total + 1] }
              exact le_trans (Nat.le_succ _) hmono
            · rw [if_neg hd]
          · simp only [dStep, hm, Bool.false_eq_true, if_false]
            by_cases hd : s.total < limit
            · rw [if_pos hd]
              have hmono := foldl_total_mono (fun s2 e2 => ih s2 e2) cs
                { s with total := s.total + 1, visited := s.visited ++ [FS.dir n cs],
                         totals := s.totals ++ [s.total + 1] }
              exact le_trans (Nat.le_succ _) hmono
            · rw [if_neg hd]

lemma foldl_congr_of_inv {P : SState → Prop} {f g : SState → FS → SState}
    (hfg : ∀ s e, P s → f s e = g s e)
    (hP : ∀ s e, P s → P (f s e)) :
    ∀ (es : List FS) (s : SState), P s → es.foldl f s = es.foldl g s := by
  intro es
  induction es with
  | nil => intro s _; rfl
  | cons e rest ih =>
      intro s hs
      rw [List.foldl_cons, List.foldl_cons, ← hfg s e hs, ih (f s e) (hP s e hs)]

/-- Fuel irrelevance for the `findFiles` walk: any two fuel amounts that keep
`limit ≤ fuel + total` — which every descent preserves, since descending
consumes one unit of fuel but also raises `total` — produce the same state,
so the wrapper's choice `fuel = limit` behaves exactly like the unbounded
recursion of the source. -/
lemma fStep_fuel_stable (tmpl : Template) (limit : Nat) :
    ∀ (fuel1 fuel2 : Nat) (s : SState) (e : FS),
      limit ≤ fuel1 + s.total → limit ≤ fuel2 + s.total →
      fStep tmpl limit fuel1 s e = fStep tmpl limit fuel2 s e := by
  intro fuel1
  induction fuel1 with
  | zero =>
      intro fuel2 s e h1 h2
      have hd : ¬ s.total < limit := by omega
      cases e with
      | file n => cases fuel2 <;> rfl
      | dir n cs =>
          cases fuel2 with
          | zero => rfl
          | succ k2 =>
              show s = (if s.total < limit then _ else s)
              rw [if_neg hd]
  | succ k ih =>
      intro fuel2 s e h1 h2
      cases e with
      | file n => cases fuel2 <;> rfl
      | dir n cs =>
          cases fuel2 with
          | zero =>
              have hd : ¬ s.total < limit := by omega
              show (if s.total < limit then _ else s) = s
              rw [if_neg hd]
          | succ k2 =>
              by_cases hd : s.total < limit
              · show (if s.total < limit then
                    cs.foldl (fStep tmpl limit k)
                      { s with total := s.total + 1, visited := s.visited ++ [FS.dir n cs],
                               totals := s.totals ++ [s.total + 1] }
                  else s) = (if s.total < limit then
                    cs.foldl (fStep tmpl limit k2)
                      { s with total := s.total + 1, visited := s.visited ++ [FS.dir n cs],
                               totals := s.totals ++ [s.total + 1] }
                  else s)
                rw [if_pos hd, if_pos hd]
                refine foldl_congr_of_inv
                  (P := fun st => limit ≤ k + st.total ∧ limit ≤ k2 + st.total)
                  ?_ ?_ cs _ ?_
                · intro st e2 hst
                  exact ih k2 st e2 hst.1 hst.2
                · intro st e2 hst
                  have hmono := fStep_total_mono tmpl limit k st e2
                  exact ⟨by omega, by omega⟩
                · constructor
                  · show limit ≤ k + (s.total + 1)
                    omega
                  · show limit ≤ k2 + (s.total + 1)
                    omega
              · show (if s.total < limit then _ else s) = (if s.total < limit then _ else s)
                rw [if_neg hd, if_neg hd]

/-- Fuel irrelevance for the `findDirectories` walk. -/
lemma dStep_fuel_stable (tmpl : Template) (limit : Nat) :
    ∀ (fuel1 fuel2 : Nat) (s : SState) (e : FS),
      limit ≤ fuel1 + s.total → limit ≤ fuel2 + s.total →
      dStep tmpl limit fuel1 s e = dStep tmpl limit fuel2 s e := by
  intro fuel1
  induction fuel1 with
  | zero =>
      intro fuel2 s e h1 h2
      have hd : ¬ s.total < limit := by omega
      cases e with
      | file n => cases fuel2 <;> rfl
      | dir n cs =>
          cases fuel2 with
          | zero => rfl
          | succ k2 =>
              by_cases hm : matchFind tmpl n = true
              · simp only [dStep, hm, if_true]
                rw [if_neg hd]
              · simp only [dStep, hm, Bool.false_eq_true, if_false]
                rw [if_neg hd]
  | succ k ih =>
      intro fuel2 s e h1 h2
      cases e with
      | file n => cases fuel2 <;> rfl
      | dir n cs =>
          cases fuel2 with
          | zero =>
              have hd : ¬ s.total < limit := by omega
              by_cases hm : matchFind tmpl n = true
              · simp only [dStep, hm, if_true]
                rw [if_neg hd]
              · simp only [dStep, hm, Bool.false_eq_true, if_false]
                rw [if_neg hd]
          | succ k2 =>
              by_cases hm : matchFind tmpl n = true
              · simp only [dStep, hm, if_true]
                by_cases hd : s.total < limit
                · rw [if_pos hd, if_pos hd]
                  refine foldl_congr_of_inv
                    (P := fun st => limit ≤ k + st.total ∧ limit ≤ k2 + st.total)
                    ?_ ?_ cs _ ?_
                  · intro st e2 hst
                    exact ih k2 st e2 hst.1 hst.2
                  · intro st e2 hst
                    have hmono := dStep_total_mono tmpl limit k st e2
                    exact ⟨by omega, by omega⟩
                  · constructor
                    · show limit ≤ k + (s.total + 1)
                      omega
                    · show limit ≤ k2 + (s.total + 1)
                      omega
                · rw [if_neg hd, if_neg hd]
              · simp only [dStep, hm, Bool.false_eq_true, if_false]
                by_cases hd : s.total < limit
                · rw [if_pos hd, if_pos hd]
                  refine foldl_congr_of_inv
                    (P := fun st => limit ≤ k + st.total ∧ limit ≤ k2 + st.total)
                    ?_ ?_ cs _ ?_
                  · intro st e2 hst
                    exact ih k2 st e2 hst.1 hst.2
                  · intro st e2 hst
                    have hmono := dStep_total_mono tmpl limit k st e2
                    exact ⟨by omega, by omega⟩
                  · constructor
                    · show limit ≤ k + (s.total + 1)
                      omega
                    · show limit ≤ k2 + (s.total + 1)
                      omega
                · rw [if_neg hd, if_neg hd]

/-- The wrapper's fuel choice is irrelevant: any fuel of at least `limit - 1`
yields the very state `findFilesSyncRun` computes. -/
lemma findFilesSyncRun_fuel_irrelevant (tmpl : Template) (limit : Nat) (root : FS)
    (fuel : Nat) (h : limit ≤ fuel + 1) :
    root.childList.foldl (fStep tmpl limit fuel) (initSState root) =
      findFilesSyncRun tmpl limit root := by
  unfold findFilesSyncRun
  refine foldl_congr_of_inv
    (P := fun st => limit ≤ fuel + st.total ∧ limit ≤ limit + st.total)
    ?_ ?_ root.childList _ ?_
  · intro st e hst
    exact fStep_fuel_stable tmpl limit fuel limit st e hst.1 hst.2
  · intro st e hst
    have hmono := fStep_total_mono tmpl limit fuel st e
    exact ⟨by omega, by omega⟩
  · constructor
    · show limit ≤ fuel + 1
      omega
    · show limit ≤ limit + 1
      omega

/-- The wrapper's fuel choice is irrelevant for `findDirectoriesSyncRun` too. -/
lemma findDirectoriesSyncRun_fuel_irrelevant (tmpl : Template) (limit : Nat) (root : FS)
    (fuel : Nat) (h : limit ≤ fuel + 1) :
    root.childList.foldl (dStep tmpl limit fuel) (initSState root) =
      findDirectoriesSyncRun tmpl limit root := by
  unfold findDirectoriesSyncRun
  refine foldl_congr_of_inv
    (P := fun st => limit ≤ fuel + st.total ∧ limit ≤ limit + st.total)
    ?_ ?_ root.childList _ ?_
  · intro st e hst
    exact dStep_fuel_stable tmpl limit fuel limit st e hst.1 hst.2
  · intro st e hst
    have hmono := dStep_total_mono tmpl limit fuel st e
    exact ⟨by omega, by omega⟩
  · constructor
    · show limit ≤ fuel + 1
      omega
    · show limit ≤ limit + 1
      omega

/-- C2 (amended): `findFiles` and `findDirectories` check their preconditions
in the order options object, local mode, asynchronous callback, existence,
short-circuiting on the first failure; `getAll` checks options, local mode
and existence, and only then — inside the asynchronous branch — callback
presence, so an asynchronous `getAll` without a callback on a nonexistent
path reports the path error; `getDirectories` in asynchronous mode checks the
callback before delegating to `getAll` at all.  A missing options object is
reported first (before any path error) by `getAll`, `findFiles` and
`findDirectories`. -/
theorem precondition_order_cascade :
    (∀ (lm : Bool) (tgt : Option FS),
      findFiles lm tgt none = ⟨none, .errorOptionsIsNotAvailable⟩) ∧
    (∀ (tgt : Option FS) (o : DirOpts),
      findFiles false tgt (some o) = ⟨none, .errorNotLocalMode⟩) ∧
    (∀ (tgt : Option FS) (tmpl : Template) (sl : Option Nat),
      findFiles true tgt (some ⟨false, tmpl, false, sl⟩) =
        ⟨none, .errorCallbackIsNotAvailable⟩) ∧
    (∀ (tmpl : Template) (cb : Bool) (sl : Option Nat),
      findFiles true none (some ⟨true, tmpl, cb, sl⟩) = ⟨none, .errorPathDoesNotExist⟩ ∧
      findFiles true none (some ⟨false, tmpl, true, sl⟩) = ⟨none, .errorPathDoesNotExist⟩) ∧
    (∀ (lm : Bool) (tgt : Option FS),
      findDirectories lm tgt none = ⟨none, .errorOptionsIsNotAvailable⟩) ∧
    (∀ (tgt : Option FS) (o : DirOpts),
      findDirectories false tgt (some o) = ⟨none, .errorNotLocalMode⟩) ∧
    (∀ (tgt : Option FS) (tmpl : Template) (sl : Option Nat),
      findDirectories true tgt (some ⟨false, tmpl, false, sl⟩) =
        ⟨none, .errorCallbackIsNotAvailable⟩) ∧
    (∀ (tmpl : Template) (cb : Bool) (sl : Option Nat),
      findDirectories true none (some ⟨true, tmpl, cb, sl⟩) = ⟨none, .errorPathDoesNotExist⟩ ∧
      findDirectories true none (some ⟨false, tmpl, true, sl⟩) = ⟨none, .errorPathDoesNotExist⟩) ∧
    (∀ (lm : Bool) (tgt : Option FS),
      getAll lm tgt none = (⟨none, .errorOptionsIsNotAvailable⟩, [])) ∧
    (∀ (tgt : Option FS) (o : DirOpts),
      getAll false tgt (some o) = (⟨none, .errorNotLocalMode⟩, [])) ∧
    (∀ (o : DirOpts),
      getAll true none (some o) = (⟨none, .errorPathDoesNotExist⟩, [HostOp.stat])) ∧
    (∀ (node : FS) (tmpl : Template) (sl : Option Nat),
      getAll true (some node) (some ⟨false, tmpl, false, sl⟩) =
        (⟨none, .errorCallbackIsNotAvailable⟩, [HostOp.stat])) ∧
    (∀ (lm : Bool) (tgt : Option FS) (tmpl : Template) (sl : Option Nat),
      getDirectories lm tgt ⟨false, tmpl, false, sl⟩ =
        (⟨none, .errorCallbackIsNotAvailable⟩, [])) := by
  refine ⟨fun lm tgt => rfl, fun tgt o => rfl, fun tgt tmpl sl => rfl,
    fun tmpl cb sl => ⟨rfl, rfl⟩, fun lm tgt => rfl, fun tgt o => rfl,
    fun tgt tmpl sl => rfl, fun tmpl cb sl => ⟨rfl, rfl⟩, fun lm tgt => rfl,
    fun tgt o => rfl, fun o => rfl, fun node tmpl sl => rfl,
    fun lm tgt tmpl sl => rfl⟩

/-- C2, counterexample to the claim as stated: asynchronous `getAll` with a
missing success callback on a nonexistent path reports the path error, not
the callback error — the callback check is not performed before the
existence check for every entry point of the `getAll` family. -/
theorem precondition_order_counterexample :
    (getAll true none (some ⟨false, Template.otherFalsy, false, none⟩)).1 =
      ⟨none, Status.errorPathDoesNotExist⟩ ∧
    Status.errorPathDoesNotExist ≠ Status.errorCallbackIsNotAvailable :=
  ⟨rfl, by decide⟩

/-- C4: on the scenario tree, `findFiles` with template `/\.txt$/` and
`searchLimit = 2` returns status `OK` with data exactly `a.txt` and `c.txt`
(`b.png` is rejected by the template, `sub/` is descended into under the
remaining budget); the second conjunct spells the returned list out as the
two-element set the scenario asserts. -/
theorem findFiles_txt_scenario :
    findFiles true (some sampleRoot) (some ⟨true, .regex dotTxtTest, false, some 2⟩) =
      ⟨some [FS.file "a.txt", FS.file "c.txt"], Status.ok⟩ ∧
    (∀ e : FS, e ∈ [FS.file "a.txt", FS.file "c.txt"] ↔
      (e = FS.file "a.txt" ∨ e = FS.file "c.txt")) := by
  refine ⟨rfl, ?_⟩
  intro e
  simp

/-- C7 (amended): asynchronous `getAll` with valid options and local mode but
no success callback returns the `{ data: null, status:
ERROR_CALLBACK_IS_NOT_AVAILABLE }` envelope synchronously; the only host call
it has performed is the `this.exists()` existence check — no directory
listing is issued and nothing is scheduled, so no callback can ever fire. -/
theorem getAll_async_missing_callback (node : FS) (tmpl : Template) (sl : Option Nat) :
    getAll true (some node) (some ⟨false, tmpl, false, sl⟩) =
      (⟨none, Status.errorCallbackIsNotAvailable⟩, [HostOp.stat]) := rfl

/-- C7, counterexample to the claim as stated: the same call has performed a
host filesystem call (the existence check), so "performs no host filesystem
call of any kind" is false. -/
theorem getAll_async_missing_callback_counterexample :
    (getAll true (some (FS.dir "saves" []))
      (some ⟨false, Template.otherFalsy, false, none⟩)).2 ≠ [] := by
  decide

/-- C8: the guards of `remove` do run before the host mutation (a non-empty
directory yields `NOT_EMPTY` and no `rmdir` is issued), but `createAsync` on
an already-existing directory — the failing input — resolves
`ERROR_DIRECTORY_ALREADY_EXISTS` and still issues the host `fs.mkdir` call,
because the promise executor lacks a `return` after each early `resolve`. -/
theorem createAsync_calls_mkdir_despite_guard :
    createAsync true true true =
      (Except.ok Status.errorDirectoryAlreadyExists, [HostOp.stat, HostOp.mkdir]) ∧
    HostOp.mkdir ∈ (createAsync true true true).2 ∧
    create true true = (Status.errorDirectoryAlreadyExists, [HostOp.stat]) ∧
    remove true (some (FS.dir "d" [FS.file "x"])) true =
      (Status.errorDirectoryIsNotEmpty, HostOp.stat :: isEmptyOps) ∧
    HostOp.rmdirSync ∉ (remove true (some (FS.dir "d" [FS.file "x"])) true).2 ∧
    HostOp.rmdir ∉ (remove true (some (FS.dir "d" [FS.file "x"])) true).2 := by
  refine ⟨rfl, by decide, rfl, rfl, by decide, by decide⟩

/-- C10: renaming an existing key to itself with overwrite enabled reports
`OK` but deletes the entry — the value is written back under the same key and
then removed, so afterwards the key no longer exists. -/
theorem rename_same_key_deletes (store : Store) (k v : String) :
    (rename (setItem store k v) k k true).1 = Status.ok ∧
    (rename (setItem store k v) k k true).2 k = none ∧
    storeHasKey (rename (setItem store k v) k k true).2 k = false := by
  have hex : storeHasKey (setItem store k v) k = true := by
    simp [storeHasKey, setItem]
  refine ⟨?_, ?_, ?_⟩ <;> simp [rename, hex, storeHasKey, setItem, removeItem]

/-- C6 (amended): in `getAll`, any template that is neither a pattern nor a
string applies no filtering at all — truthy or falsy, the result is the same
as with no template.  In `findFiles` / `findDirectories` the behavior splits:
a falsy value (no template) matches every entity, but a truthy non-pattern
non-string template matches no entity, so the synchronous walks return an
empty collection over every tree and budget. -/
theorem template_neither_regex_nor_string :
    (∀ (lm : Bool) (tgt : Option FS) (sy cb : Bool) (sl : Option Nat),
      getAll lm tgt (some ⟨sy, Template.otherTruthy, cb, sl⟩) =
        getAll lm tgt (some ⟨sy, Template.otherFalsy, cb, sl⟩)) ∧
    (∀ n, matchGetAll Template.otherTruthy n = true ∧
      matchGetAll Template.otherFalsy n = true) ∧
    (∀ n, matchFind Template.otherFalsy n = true) ∧
    (∀ n, matchFind Template.otherTruthy n = false) ∧
    (∀ (limit : Nat) (root : FS),
      (findFilesSyncRun Template.otherTruthy limit root).acc = []) ∧
    (∀ (limit : Nat) (root : FS),
      (findDirectoriesSyncRun Template.otherTruthy limit root).acc = []) := by
  refine ⟨?_, fun n => ⟨rfl, rfl⟩, fun n => rfl, fun n => rfl, ?_, ?_⟩
  · intro lm tgt sy cb sl
    unfold getAll
    cases lm with
    | false => rfl
    | true =>
        cases tgt with
        | none => rfl
        | some node => simp [getAllData, matchGetAll]
  · intro limit root
    unfold findFilesSyncRun
    rw [foldl_acc_eq (fun s2 e2 => fStep_otherTruthy_acc limit limit s2 e2)]
    rfl
  · intro limit root
    unfold findDirectoriesSyncRun
    rw [foldl_acc_eq (fun s2 e2 => dStep_otherTruthy_acc limit limit s2 e2)]
    rfl

/-- C6, counterexample to the claim as stated: with a truthy non-pattern
non-string template, the synchronous `findFiles` collects nothing, whereas
the same call with no template collects the file — so such a template does
not behave like "no filtering" in the `find*` family. -/
theorem template_neither_regex_nor_string_counterexample :
    (findFiles true (some (FS.dir "r" [FS.file "a"]))
      (some ⟨true, Template.otherTruthy, false, none⟩)).data = some [] ∧
    (findFiles true (some (FS.dir "r" [FS.file "a"]))
      (some ⟨true, Template.otherFalsy, false, none⟩)).data = some [FS.file "a"] ∧
    some ([] : List FS) ≠ some [FS.file "a"] := by
  refine ⟨rfl, rfl, ?_⟩
  simp

/-- C1: in every asynchronous `findFiles` or `findDirectories` run (modulo
host delivery order of sibling completions), the success continuation has not
fired while any scheduled enumeration is still in flight (and the run can
always take another turn), and once every scheduled enumeration has completed
it has fired exactly once, with the full accumulated collection and status
`OK`, at a point where `processed = total`; from that terminal state no
further turn — hence no second firing — is possible. -/
theorem find_async_success_fires_exactly_once (tmpl : Template) (osl : Option Nat)
    (root : FS) (s : AState) :
    (ReachF tmpl (effSearchLimit osl) (initAState root) s →
      (s.pending ≠ [] → s.fired = [] ∧
        ∃ s2, FStep tmpl (effSearchLimit osl) s s2) ∧
      (s.pending = [] → s.fired = [⟨some s.acc, Status.ok⟩] ∧ s.processed = s.total ∧
        ∀ s2, ¬ FStep tmpl (effSearchLimit osl) s s2)) ∧
    (ReachD tmpl (effSearchLimit osl) (initAState root) s →
      (s.pending ≠ [] → s.fired = [] ∧
        ∃ s2, DStep tmpl (effSearchLimit osl) s s2) ∧
      (s.pending = [] → s.fired = [⟨some s.acc, Status.ok⟩] ∧ s.processed = s.total ∧
        ∀ s2, ¬ DStep tmpl (effSearchLimit osl) s s2)) := by
  constructor
  · intro h
    obtain ⟨htot, hle, hfe, hfne⟩ :=
      machineInv_reach (procSpec_fProcEntity tmpl (effSearchLimit osl)) h
        (machineInv_init (effSearchLimit osl) root (one_le_effSearchLimit osl))
    refine ⟨fun hne => ⟨hfne hne, mstep_progress hne⟩, fun hpe => ⟨hfe hpe, ?_, ?_⟩⟩
    · rw [htot, hpe]
      simp
    · intro s2
      exact mstep_terminal hpe
  · intro h
    obtain ⟨htot, hle, hfe, hfne⟩ :=
      machineInv_reach (procSpec_dProcEntity tmpl (effSearchLimit osl)) h
        (machineInv_init (effSearchLimit osl) root (one_le_effSearchLimit osl))
    refine ⟨fun hne => ⟨hfne hne, mstep_progress hne⟩, fun hpe => ⟨hfe hpe, ?_, ?_⟩⟩
    · rw [htot, hpe]
      simp
    · intro s2
      exact mstep_terminal hpe

theorem find_async_success_fires_exactly_once_witness :
    ((initAState (FS.file "r")).pending ≠ [] →
      (initAState (FS.file "r")).fired = [] ∧
      ∃ s2, FStep Template.otherFalsy (effSearchLimit none) (initAState (FS.file "r")) s2) ∧
    ((initAState (FS.file "r")).pending = [] →
      (initAState (FS.file "r")).fired =
        [⟨some (initAState (FS.file "r")).acc, Status.ok⟩] ∧
      (initAState (FS.file "r")).processed = (initAState (FS.file "r")).total ∧
      ∀ s2, ¬ FStep Template.otherFalsy (effSearchLimit none)
        (initAState (FS.file "r")) s2) :=
  (find_async_success_fires_exactly_once Template.otherFalsy none (FS.file "r")
    (initAState (FS.file "r"))).1 Relation.ReflTransGen.refl

/-- C3: with the default budget `searchLimit = 1` (the value used when the
option is omitted or zero), `findFiles` and `findDirectories` return exactly
the matching direct children of the root and never enumerate a subdirectory:
synchronously, the collected entities are precisely the direct file
(respectively directory) children admitted by the template and the only
directory ever enumerated is the root; asynchronously, `total` stays `1`
throughout, and the delivered collection is the same filtered list of direct
children. -/
theorem find_searchLimit_one_direct_children_only (tmpl : Template) (root : FS) :
    effSearchLimit none = 1 ∧ effSearchLimit (some 1) = 1 ∧
    ((findFilesSyncRun tmpl 1 root).acc =
        root.childList.filter (fun e => e.isFile && matchFind tmpl e.fullName) ∧
      (findFilesSyncRun tmpl 1 root).visited = [root]) ∧
    ((findDirectoriesSyncRun tmpl 1 root).acc =
        root.childList.filter (fun e => e.isDirectory && matchFind tmpl e.fullName) ∧
      (findDirectoriesSyncRun tmpl 1 root).visited = [root]) ∧
    (∀ s : AState, ReachF tmpl 1 (initAState root) s →
      s.total = 1 ∧ (s.pending = [] →
        s.acc = root.childList.filter (fun e => e.isFile && matchFind tmpl e.fullName))) ∧
    (∀ s : AState, ReachD tmpl 1 (initAState root) s →
      s.total = 1 ∧ (s.pending = [] →
        s.acc = (root.childList.filter FS.isDirectory).filter
          (fun e => matchFind tmpl e.fullName))) := by
  have hone : (1 : Nat) ≤ (initSState root).total := by
    show (1 : Nat) ≤ 1
    omega
  refine ⟨rfl, rfl, ?_, ?_, ?_, ?_⟩
  · unfold findFilesSyncRun
    rw [foldl_fStep_no_descend tmpl 1 1 root.childList (initSState root) hone]
    constructor
    · show [] ++ root.childList.filter (fun e => e.isFile && matchFind tmpl e.fullName) = _
      simp
    · rfl
  · unfold findDirectoriesSyncRun
    rw [foldl_dStep_no_descend tmpl 1 1 root.childList (initSState root) hone]
    constructor
    · show [] ++ root.childList.filter (fun e => e.isDirectory && matchFind tmpl e.fullName) = _
      simp
    · rfl
  · intro s hs
    rcases reachF_limit_one tmpl root s hs with h | h
    · subst h
      refine ⟨rfl, fun hpe => ?_⟩
      exact absurd hpe (by simp [initAState])
    · exact ⟨h.2.1, fun _ => h.2.2.1⟩
  · intro s hs
    rcases reachD_limit_one tmpl root s hs with h | h
    · subst h
      refine ⟨rfl, fun hpe => ?_⟩
      exact absurd hpe (by simp [initAState])
    · exact ⟨h.2.1, fun _ => h.2.2.1⟩

theorem find_searchLimit_one_direct_children_only_witness :
    (initAState (FS.dir "r" [FS.file "a"])).total = 1 ∧
    ((initAState (FS.dir "r" [FS.file "a"])).pending = [] →
      (initAState (FS.dir "r" [FS.file "a"])).acc =
        (FS.dir "r" [FS.file "a"]).childList.filter
          (fun e => e.isFile && matchFind Template.otherFalsy e.fullName)) :=
  (find_searchLimit_one_direct_children_only Template.otherFalsy
    (FS.dir "r" [FS.file "a"])).2.2.2.2.1 (initAState (FS.dir "r" [FS.file "a"]))
    Relation.ReflTransGen.refl

/-- C5: throughout a `find*` invocation the budget counters respect
`processed ≤ total ≤ searchLimit` (with `searchLimit` the `|| 1`-defaulted
value): on the synchronous path `processed` stays `0`, `total` starts at `1`
(the head of the recorded history) and every value `total` ever takes is
bounded by the limit; on the asynchronous path every reachable state — in
particular the state at each callback firing — satisfies
`processed ≤ total ≤ searchLimit`, starting from `total = 1`. -/
theorem find_budget_counters_bounded (tmpl : Template) (osl : Option Nat) (root : FS) :
    ((findFilesSyncRun tmpl (effSearchLimit osl) root).processed = 0 ∧
      (∃ rest, (findFilesSyncRun tmpl (effSearchLimit osl) root).totals = 1 :: rest) ∧
      (∀ t ∈ (findFilesSyncRun tmpl (effSearchLimit osl) root).totals,
        t ≤ effSearchLimit osl)) ∧
    ((findDirectoriesSyncRun tmpl (effSearchLimit osl) root).processed = 0 ∧
      (∃ rest, (findDirectoriesSyncRun tmpl (effSearchLimit osl) root).totals = 1 :: rest) ∧
      (∀ t ∈ (findDirectoriesSyncRun tmpl (effSearchLimit osl) root).totals,
        t ≤ effSearchLimit osl)) ∧
    (initAState root).total = 1 ∧
    (∀ s : AState, ReachF tmpl (effSearchLimit osl) (initAState root) s →
      s.processed ≤ s.total ∧ s.total ≤ effSearchLimit osl) ∧
    (∀ s : AState, ReachD tmpl (effSearchLimit osl) (initAState root) s →
      s.processed ≤ s.total ∧ s.total ≤ effSearchLimit osl) := by
  obtain ⟨hf1, hf2, hf3, hf4⟩ := findFilesSyncRun_syncInv tmpl osl root
  obtain ⟨hd1, hd2, hd3, hd4⟩ := findDirectoriesSyncRun_syncInv tmpl osl root
  refine ⟨⟨hf2, hf3, hf4⟩, ⟨hd2, hd3, hd4⟩, rfl, ?_, ?_⟩
  · intro s hs
    obtain ⟨htot, hle, _, _⟩ :=
      machineInv_reach (procSpec_fProcEntity tmpl (effSearchLimit osl)) hs
        (machineInv_init (effSearchLimit osl) root (one_le_effSearchLimit osl))
    exact ⟨by omega, hle⟩
  · intro s hs
    obtain ⟨htot, hle, _, _⟩ :=
      machineInv_reach (procSpec_dProcEntity tmpl (effSearchLimit osl)) hs
        (machineInv_init (effSearchLimit osl) root (one_le_effSearchLimit osl))
    exact ⟨by omega, hle⟩

theorem find_budget_counters_bounded_witness :
    (initAState (FS.file "r")).processed ≤ (initAState (FS.file "r")).total ∧
    (initAState (FS.file "r")).total ≤ effSearchLimit none :=
  (find_budget_counters_bounded Template.otherFalsy none (FS.file "r")).2.2.2.1
    (initAState (FS.file "r")) Relation.ReflTransGen.refl

/-- C9: saving any value through the wrapper with both the stringify and
compress stages enabled and loading the same key with both the decompress and
parse stages enabled yields status `OK` and reproduces the value exactly.
The external collaborators are quantified, with their contracts as
hypotheses: `LZString.decompressFromBase64` inverts
`LZString.compressToBase64`, `JSON.parse` inverts `JSON.stringify` on the
value, and the stored string is nonempty (true of the real collaborators for
every JSON-serializable value; the empty string would be falsy and skip both
load stages). -/
theorem webStorage_roundtrip {α : Type} (stringifyFn : α → String)
    (compressFn : String → String) (coerce : α → String)
    (decompressFn : String → Except Unit String) (parseFn : String → Except Unit α)
    (store : Store) (key : String) (v : α)
    (hdc : decompressFn (compressFn (stringifyFn v)) = Except.ok (stringifyFn v))
    (hparse : parseFn (stringifyFn v) = Except.ok v)
    (hne : compressFn (stringifyFn v) ≠ "") :
    (save stringifyFn compressFn coerce store key v ⟨none, true, true⟩).1 = Status.ok ∧
    load decompressFn parseFn
      (save stringifyFn compressFn coerce store key v ⟨none, true, true⟩).2 key
      ⟨true, true⟩ = (some (LoadData.parsed v), Status.ok) := by
  have hsave : save stringifyFn compressFn coerce store key v ⟨none, true, true⟩ =
      (Status.ok, setItem store key (compressFn (stringifyFn v))) := by
    simp [save]
  rw [hsave]
  refine ⟨rfl, ?_⟩
  have hget : setItem store key (compressFn (stringifyFn v)) key =
      some (compressFn (stringifyFn v)) := by
    simp [setItem]
  have hkey : storeHasKey (setItem store key (compressFn (stringifyFn v))) key = true := by
    simp [storeHasKey, hget]
  unfold load
  rw [hkey]
  simp only [Bool.true_eq_false, if_false, hget, Option.getD_some]
  rw [if_neg hne]
  simp only [if_true, hdc, hparse]

theorem webStorage_roundtrip_witness :
    (save (fun _ : Unit => "u") (fun s => s) (fun _ => "") (fun _ => none) "k" ()
      ⟨none, true, true⟩).1 = Status.ok ∧
    load (fun s => Except.ok s)
      (fun s => if s = "u" then Except.ok () else Except.error ())
      (save (fun _ : Unit => "u") (fun s => s) (fun _ => "") (fun _ => none) "k" ()
        ⟨none, true, true⟩).2 "k" ⟨true, true⟩ =
      (some (LoadData.parsed ()), Status.ok) :=
  webStorage_roundtrip (fun _ : Unit => "u") (fun s => s) (fun _ => "")
    (fun s => Except.ok s) (fun s => if s = "u" then Except.ok () else Except.error ())
    (fun _ => none) "k" () rfl (by simp) (by simp)

end DKTools
